import Mathlib

/-
Verification of the stock-scanner `src/main.py`:
symbol validation and normalization (`is_valid_symbol`, `clean_symbol`),
universe resolution (`get_all_tickers`), historical-data gating
(`get_stock_data`), signal scoring (`analyze_stock`) and collection plus
ranking of scan results (`scan_market`, `main`).

Modelling conventions:
* Python strings are modelled as lists of characters (`Str`);
  `str.strip` removes the full Unicode whitespace set, `str.upper` is
  modelled on the ASCII letters (ticker strings are ASCII).
* Numeric DataFrame cells are modelled as exact rationals extended with
  the IEEE-754 special values `inf`, `-inf`, `nan` (`NFloat`), because
  pandas/numpy float64 columns produce these: in particular numpy float
  division by zero yields an infinity or NaN together with a warning, it
  does not raise an exception, and every comparison involving NaN is
  false.  Magnitudes are kept exact; no claim below depends on rounding.
* The external collaborators (yfinance, the S&P 500 listing) appear as
  explicit inputs (`Except`/lists), mirroring "raises or returns data".
-/

namespace StockScan

/-! ### Strings -/

abbrev Str := List Char

/-- The characters removed by Python `str.strip()`: exactly those with
the Unicode whitespace property (`str.isspace`), i.e. `\t\n\v\f\r`, the
file/group/record/unit separators `\x1c`-`\x1f`, the space, next line
`\x85`, no-break space `\xa0`, Ogham space `\x1680`, the en/em-style
spaces `\x2000`-`\x200a`, line and paragraph separators `\x2028`,
`\x2029`, narrow no-break space `\x202f`, medium mathematical space
`\x205f`, and ideographic space `\x3000`. -/
def pyIsSpace (c : Char) : Bool :=
  (9 ≤ c.toNat && c.toNat ≤ 13) || (28 ≤ c.toNat && c.toNat ≤ 32) ||
    c.toNat = 133 || c.toNat = 160 || c.toNat = 5760 ||
    (8192 ≤ c.toNat && c.toNat ≤ 8202) || c.toNat = 8232 ||
    c.toNat = 8233 || c.toNat = 8239 || c.toNat = 8287 || c.toNat = 12288

/-- Python `str.strip()`: drop whitespace from both ends. -/
def pyStrip (s : Str) : Str :=
  ((s.dropWhile pyIsSpace).reverse.dropWhile pyIsSpace).reverse

/-- Python `str.upper()` on ASCII strings, character by character. -/
def pyUpper (s : Str) : Str :=
  s.map Char.toUpper

/-! ### Symbol validation (`is_valid_symbol`, `clean_symbol`)

Each regular expression in `invalid_patterns` is translated to the
predicate it decides under `re.search`:
* a pattern `X$` holds iff the string ends with `X`;
* a bare character class holds iff some character of the string is in it;
* a pattern with a trailing `+` before `$` holds iff the minimal run is a
  suffix, which only constrains the final characters.
-/

def containsChar (s : Str) (c : Char) : Bool :=
  s.contains c

/-- `re.search(suf ++ "$", s)` for a literal suffix. -/
def hasSuffix (suf s : Str) : Bool :=
  suf.isSuffixOf s

/-- `re.search(r"\d+$", s)`: the string ends with a digit. -/
def lastIsDigit (s : Str) : Bool :=
  (s.getLast?.map Char.isDigit).getD false

/-- `re.search(r"[A-Z]+W$", s)`: a final `W` preceded by an upper-case
letter. -/
def endsUpperThenW (s : Str) : Bool :=
  match s.reverse with
  | 'W' :: c :: _ => c.isUpper
  | _ => false

/-- `src/main.py` lines 18-23, one disjunct per entry of
`invalid_patterns` in order. -/
def is_valid_symbol (s : Str) : Bool :=
  !(containsChar s '$' ||
    hasSuffix ['.', 'W'] s ||
    hasSuffix ['.', 'U'] s ||
    lastIsDigit s ||
    hasSuffix ['.', 'W', 'S'] s ||
    hasSuffix ['.', 'R', 'T'] s ||
    hasSuffix ['.', 'P', 'W'] s ||
    endsUpperThenW s ||
    containsChar s '.' ||
    s.any (fun c => c == '^' || c == '$' || c == '.'))

/-- `src/main.py` lines 25-30: strip, uppercase, keep iff valid. -/
def clean_symbol (s : Str) : Option Str :=
  let t := pyUpper (pyStrip s)
  if is_valid_symbol t then some t else none

/-! ### Character-level facts about `Char.toUpper` -/

theorem char_toNat_ofNat_of_lt (n : Nat) (h : n < 55296) :
    (Char.ofNat n).toNat = n := by
  rw [Char.ofNat, dif_pos (Or.inl h)]
  rfl

theorem toNat_toUpper (c : Char) :
    (Char.toUpper c).toNat =
      if 97 ≤ c.toNat ∧ c.toNat ≤ 122 then c.toNat - 32 else c.toNat := by
  rw [Char.toUpper]
  split
  · next h =>
    exact char_toNat_ofNat_of_lt _ (by omega)
  · next h =>
    rfl

theorem pyIsSpace_toUpper (c : Char) :
    pyIsSpace (Char.toUpper c) = pyIsSpace c := by
  simp only [pyIsSpace, toNat_toUpper]
  split
  · next h =>
    rw [Bool.eq_iff_iff]
    simp only [Bool.or_eq_true, Bool.and_eq_true, decide_eq_true_eq]
    omega
  · rfl

theorem toUpper_toUpper (c : Char) :
    Char.toUpper (Char.toUpper c) = Char.toUpper c := by
  have hval : ¬ (97 ≤ (Char.toUpper c).toNat ∧ (Char.toUpper c).toNat ≤ 122) ∨
      Char.toUpper c = c := by
    rw [toNat_toUpper]
    split
    · next h => left; omega
    · next h => right; rw [Char.toUpper, if_neg (by omega)]
  rcases hval with h | h
  · rw [Char.toUpper]
    rw [if_neg (by omega)]
  · rw [h, h]

/-! ### Algebra of `pyStrip` and `pyUpper` -/

theorem dropWhile_eq_self_of_head (p : α → Bool) (l : List α)
    (h : ∀ c, l.head? = some c → p c = false) : l.dropWhile p = l := by
  cases l with
  | nil => rfl
  | cons a t =>
    have := h a rfl
    rw [List.dropWhile_cons_of_neg (by simp [this])]

theorem head?_pyStrip (s : Str) (c : Char) (h : (pyStrip s).head? = some c) :
    pyIsSpace c = false := by
  have hd : ∀ x, (pyStrip s).head? = some x → x ∈ pyStrip s := by
    intro x hx
    exact List.mem_of_mem_head? hx
  have hsplit :
      s.dropWhile pyIsSpace = pyStrip s ++
        ((s.dropWhile pyIsSpace).reverse.takeWhile pyIsSpace).reverse := by
    have := List.takeWhile_append_dropWhile pyIsSpace (s.dropWhile pyIsSpace).reverse
    calc s.dropWhile pyIsSpace
        = ((s.dropWhile pyIsSpace).reverse).reverse := by rw [List.reverse_reverse]
      _ = ((s.dropWhile pyIsSpace).reverse.takeWhile pyIsSpace ++
            (s.dropWhile pyIsSpace).reverse.dropWhile pyIsSpace).reverse := by rw [this]
      _ = _ := by
            rw [List.reverse_append]
            rfl
  have hh : (s.dropWhile pyIsSpace).head? = some c := by
    rw [hsplit, List.head?_append, h]
    rfl
  have := List.head?_dropWhile_not pyIsSpace s
  rw [hh] at this
  simpa using this

theorem getLast?_pyStrip (s : Str) (c : Char)
    (h : (pyStrip s).getLast? = some c) : pyIsSpace c = false := by
  have hh : ((s.dropWhile pyIsSpace).reverse.dropWhile pyIsSpace).head? = some c := by
    have : (pyStrip s).getLast? =
        ((s.dropWhile pyIsSpace).reverse.dropWhile pyIsSpace).head? := by
      simp [pyStrip]
    rw [this] at h
    exact h
  have := List.head?_dropWhile_not pyIsSpace (s.dropWhile pyIsSpace).reverse
  rw [hh] at this
  simpa using this

theorem pyStrip_pyStrip (s : Str) : pyStrip (pyStrip s) = pyStrip s := by
  have h1 : (pyStrip s).dropWhile pyIsSpace = pyStrip s :=
    dropWhile_eq_self_of_head _ _ (head?_pyStrip s)
  have h2 : (pyStrip s).reverse.dropWhile pyIsSpace = (pyStrip s).reverse := by
    apply dropWhile_eq_self_of_head
    intro c hc
    rw [List.head?_reverse] at hc
    exact getLast?_pyStrip s c hc
  show ((((pyStrip s).dropWhile pyIsSpace).reverse).dropWhile pyIsSpace).reverse = pyStrip s
  rw [h1, h2, List.reverse_reverse]

theorem pyIsSpace_comp_toUpper : pyIsSpace ∘ Char.toUpper = pyIsSpace :=
  funext pyIsSpace_toUpper

theorem pyStrip_pyUpper (s : Str) : pyStrip (pyUpper s) = pyUpper (pyStrip s) := by
  simp only [pyStrip, pyUpper]
  rw [List.dropWhile_map, pyIsSpace_comp_toUpper, ← List.map_reverse,
    List.dropWhile_map, pyIsSpace_comp_toUpper, ← List.map_reverse]

theorem pyUpper_pyUpper (s : Str) : pyUpper (pyUpper s) = pyUpper s := by
  simp only [pyUpper, List.map_map]
  exact List.map_congr_left (fun c _ => toUpper_toUpper c)

theorem clean_symbol_some (s t : Str) (h : clean_symbol s = some t) :
    t = pyUpper (pyStrip s) ∧ is_valid_symbol t = true := by
  simp only [clean_symbol] at h
  split at h
  · next hv => cases h; exact ⟨rfl, hv⟩
  · cases h

theorem clean_symbol_fix (s t : Str) (h : clean_symbol s = some t) :
    clean_symbol t = some t := by
  obtain ⟨ht, hv⟩ := clean_symbol_some s t h
  have key : pyUpper (pyStrip t) = t := by
    rw [ht, pyStrip_pyUpper, pyStrip_pyStrip, pyUpper_pyUpper]
  unfold clean_symbol
  rw [key, if_pos hv]

/-! ### Claims about the Symbol Validator -/

/-- The exclusion conditions exactly as the claim lists them, applied to
the trimmed and uppercased string. -/
def claimExcluded (t : Str) : Prop :=
  '$' ∈ t ∨ '.' ∈ t ∨ '^' ∈ t ∨
  hasSuffix ['.', 'W'] t = true ∨ hasSuffix ['.', 'U'] t = true ∨
  hasSuffix ['.', 'W', 'S'] t = true ∨ hasSuffix ['.', 'R', 'T'] t = true ∨
  hasSuffix ['.', 'P', 'W'] t = true ∨ lastIsDigit t = true ∨
  endsUpperThenW t = true

theorem is_valid_symbol_eq_false (t : Str) (h : claimExcluded t) :
    is_valid_symbol t = false := by
  simp only [is_valid_symbol, Bool.not_eq_false', Bool.or_eq_true]
  rcases h with h | h | h | h | h | h | h | h | h | h
  · exact Or.inl (Or.inl (Or.inl (Or.inl (Or.inl (Or.inl (Or.inl (Or.inl
      (Or.inl (by simp only [containsChar]; exact List.elem_iff.mpr h)))))))))
  · refine Or.inl (Or.inr ?_)
    simp only [containsChar]
    exact List.elem_iff.mpr h
  · refine Or.inr ?_
    rw [List.any_eq_true]
    exact ⟨'^', h, by simp⟩
  · exact Or.inl (Or.inl (Or.inl (Or.inl (Or.inl (Or.inl (Or.inl (Or.inl
      (Or.inr h))))))))
  · exact Or.inl (Or.inl (Or.inl (Or.inl (Or.inl (Or.inl (Or.inl (Or.inr h)))))))
  · exact Or.inl (Or.inl (Or.inl (Or.inl (Or.inl (Or.inr h)))))
  · exact Or.inl (Or.inl (Or.inl (Or.inl (Or.inr h))))
  · exact Or.inl (Or.inl (Or.inl (Or.inr h)))
  · exact Or.inl (Or.inl (Or.inl (Or.inl (Or.inl (Or.inl (Or.inr h))))))
  · exact Or.inl (Or.inl (Or.inr h))

/-- C4: every raw ticker whose trimmed, uppercased form contains `$`, `.`
or `^`, or ends in `.W`, `.U`, `.WS`, `.RT`, `.PW`, in a digit run, or in
upper-case letters followed by `W`, is rejected by `clean_symbol`. -/
theorem claim_C4 (s : Str) (h : claimExcluded (pyUpper (pyStrip s))) :
    clean_symbol s = none := by
  simp only [clean_symbol, is_valid_symbol_eq_false _ h]
  simp

theorem claim_C4_witness : clean_symbol ['A', '.', 'B'] = none :=
  claim_C4 ['A', '.', 'B'] (Or.inr (Or.inl (by decide)))

/-- C5 fails as stated: a whitespace-only raw string normalizes
successfully to the empty string, because the empty string matches none
of the exclusion patterns. -/
theorem claim_C5_counterexample : clean_symbol [' '] = some [] := by
  decide

/-- C5 (amended): on success the returned symbol is uppercase, and it is
non-empty provided the raw string contains at least one non-whitespace
character. -/
theorem claim_C5_amended (s t : Str) (h : clean_symbol s = some t) :
    pyUpper t = t ∧ ((∃ c ∈ s, pyIsSpace c = false) → t ≠ []) := by
  obtain ⟨ht, hv⟩ := clean_symbol_some s t h
  constructor
  · rw [ht, pyUpper_pyUpper]
  · rintro ⟨c, hc, hcs⟩ hnil
    rw [ht] at hnil
    have hstrip : pyStrip s = [] := by
      have := congrArg List.length hnil
      simp only [pyUpper, List.length_map, List.length_nil] at this
      exact List.eq_nil_of_length_eq_zero this
    have hall : ∀ x ∈ s, pyIsSpace x = true := by
      intro x hx
      have hsplit := List.takeWhile_append_dropWhile pyIsSpace s
      have hdrop : ∀ y ∈ s.dropWhile pyIsSpace, pyIsSpace y = true := by
        have hnil2 : (s.dropWhile pyIsSpace).reverse.dropWhile pyIsSpace = [] := by
          have := congrArg List.reverse hstrip
          simpa [pyStrip] using this
        have := List.dropWhile_eq_nil_iff.mp hnil2
        intro y hy
        exact this y (by simpa using hy)
      rw [← hsplit] at hx
      rcases List.mem_append.mp hx with hx | hx
      · exact List.mem_takeWhile_imp hx
      · exact hdrop x hx
    rw [hall c hc] at hcs
    cases hcs

theorem claim_C5_amended_witness :
    pyUpper ['A'] = ['A'] ∧
      ((∃ c ∈ ['a'], pyIsSpace c = false) → ['A'] ≠ ([] : Str)) :=
  claim_C5_amended ['a'] ['A'] (by decide)

/-- C9: normalization is idempotent on every string it accepts: if
`clean_symbol` succeeds, running it again on the output returns the same
result. -/
theorem claim_C9 (s t : Str) (h : clean_symbol s = some t) :
    clean_symbol t = clean_symbol s := by
  rw [h]
  exact clean_symbol_fix s t h

theorem claim_C9_witness :
    clean_symbol ['A', 'B'] = clean_symbol [' ', 'a', 'b'] :=
  claim_C9 [' ', 'a', 'b'] ['A', 'B'] (by decide)

/-! ### Numeric cell values

`NFloat` models pandas/numpy float64 cells: an exact rational magnitude
or one of the IEEE special values.  Comparisons involving `nan` are
false; division by zero yields an infinity or `nan` (numpy emits a
warning, it does not raise). -/

inductive NFloat where
  | fin (q : ℚ)
  | inf
  | ninf
  | nan
deriving DecidableEq, Inhabited

/-- IEEE `≤` on cell values. -/
def nfLE : NFloat → NFloat → Bool
  | .nan, _ => false
  | _, .nan => false
  | .ninf, _ => true
  | _, .ninf => false
  | _, .inf => true
  | .inf, _ => false
  | .fin a, .fin b => a ≤ b

/-- IEEE `<` on cell values. -/
def nfLT : NFloat → NFloat → Bool
  | .nan, _ => false
  | _, .nan => false
  | .ninf, .ninf => false
  | .ninf, _ => true
  | _, .ninf => false
  | .inf, _ => false
  | _, .inf => true
  | .fin a, .fin b => a < b

/-- IEEE division on cell values (single signless zero, as produced by
the non-negative volume averages this model divides by). -/
def nfDiv : NFloat → NFloat → NFloat
  | .nan, _ => .nan
  | _, .nan => .nan
  | .inf, .inf => .nan
  | .inf, .ninf => .nan
  | .ninf, .inf => .nan
  | .ninf, .ninf => .nan
  | .inf, .fin b => if b < 0 then .ninf else .inf
  | .ninf, .fin b => if b < 0 then .inf else .ninf
  | .fin _, .inf => .fin 0
  | .fin _, .ninf => .fin 0
  | .fin a, .fin b =>
    if b = 0 then (if 0 < a then .inf else if a < 0 then .ninf else .nan)
    else .fin (a / b)

/-- `pd.isna` on one cell. -/
def isna : NFloat → Bool
  | .nan => true
  | _ => false

/-! ### History fetching (`get_stock_data`)

The yfinance call is an explicit input: either the raised error or the
returned OHLCV frame, one `Bar` per row. -/

structure Bar where
  o : NFloat
  h : NFloat
  l : NFloat
  c : NFloat
  v : NFloat
deriving DecidableEq

/-- Missing required fields in one bar, as counted by
`df[["Open", "High", "Low", "Close", "Volume"]].isna().sum().sum()`. -/
def barMissing (b : Bar) : ℕ :=
  (if isna b.o then 1 else 0) + (if isna b.h then 1 else 0) +
    (if isna b.l then 1 else 0) + (if isna b.c then 1 else 0) +
    (if isna b.v then 1 else 0)

def missingCount (df : List Bar) : ℕ :=
  (df.map barMissing).sum

/-- `src/main.py` lines 47-57.  The float comparison
`missing > len(df) * 0.1` is rendered exactly as `10 * missing > len`:
for every bar count below `10^14` the float64 rounding of `len * 0.1`
cannot move an integer across the threshold, so the two comparisons
agree. -/
def get_stock_data (fetched : Except Unit (List Bar)) : Option (List Bar) :=
  match fetched with
  | .error _ => none
  | .ok df =>
    if df.length < 20 ∨ 10 * missingCount df > df.length then none else some df

/-- The claim's condition for returning no data: a raised error, fewer
than 20 bars, or more than 10% of the required fields across all bars
missing (each bar carries five required fields). -/
def claimNoData (fetched : Except Unit (List Bar)) : Prop :=
  match fetched with
  | .error _ => True
  | .ok df => df.length < 20 ∨ 10 * missingCount df > 5 * df.length

/-- A 20-bar frame whose first three bars miss their `Open` field: 3 of
the 100 required fields are missing. -/
def c2frame : List Bar :=
  List.replicate 3 (Bar.mk .nan (.fin 1) (.fin 1) (.fin 1) (.fin 1)) ++
    List.replicate 17 (Bar.mk (.fin 1) (.fin 1) (.fin 1) (.fin 1) (.fin 1))

/-- C2 fails as stated: the code compares the count of missing fields
against 10% of the number of bars, not 10% of the number of required
fields.  On a 20-bar frame with 3 missing fields (3% of the 100 fields)
the claim keeps the series but the code drops it. -/
theorem claim_C2_counterexample :
    get_stock_data (Except.ok c2frame) = none ∧
      ¬ claimNoData (Except.ok c2frame) := by
  constructor
  · decide
  · show ¬ (c2frame.length < 20 ∨ 10 * missingCount c2frame > 5 * c2frame.length)
    decide

/-- C2 (amended): `get_stock_data` returns no data exactly when the
source raises, the series has fewer than 20 bars, or the number of
missing required fields exceeds 10% of the number of bars (2% of the
required fields); otherwise it returns the series unchanged. -/
theorem claim_C2_amended (fetched : Except Unit (List Bar)) :
    (get_stock_data fetched = none ↔
      (fetched matches .error _) ∨
        ∃ df, fetched = .ok df ∧
          (df.length < 20 ∨ 10 * missingCount df > df.length)) ∧
      (∀ df, get_stock_data fetched = some df → fetched = .ok df) := by
  constructor
  · match fetched with
    | .error e => simp [get_stock_data]
    | .ok df =>
      simp only [get_stock_data]
      constructor
      · intro h
        right
        refine ⟨df, rfl, ?_⟩
        by_contra hc
        rw [if_neg hc] at h
        cases h
      · rintro (h | ⟨df2, hdf2, h⟩)
        · cases h
        · cases hdf2
          rw [if_pos h]
  · intro df2 h
    match fetched with
    | .error e => cases h
    | .ok df =>
      simp only [get_stock_data] at h
      split at h
      · cases h
      · cases h
        rfl

theorem claim_C2_amended_witness :
    get_stock_data (Except.error ()) = none :=
  ((claim_C2_amended (Except.error ())).1).mpr (Or.inl (by constructor))

/-! ### Indicator frames and the Signal Evaluator (`analyze_stock`)

An indicator frame row carries the columns `analyze_stock` reads.  The
indicator values themselves are inputs here: the claims quantify over
all frames, and `calculate_technical_indicators` is a black-box
collaborator in the spec. -/

structure Row where
  Close : NFloat
  Volume : NFloat
  RSI : NFloat
  MACD : NFloat
  MACD_Signal : NFloat
  BB_High : NFloat
  BB_Low : NFloat
  SMA_20 : NFloat
  SMA_50 : NFloat
  Volume_SMA : NFloat
  Trend_20 : NFloat
deriving DecidableEq, Inhabited

/-- The messages appended to `signals`, as tags; the volume-spike entry
carries the ratio that the code formats into its message. -/
inductive Signal where
  | rsiOversold
  | rsiNearOversold
  | macdCross
  | belowLowerBand
  | smaCross
  | volumeSpike (ratio : NFloat)
deriving DecidableEq

structure Opportunity where
  symbol : Str
  signals : List Signal
  score : ℕ
  current_price : NFloat
  rsi : NFloat
  volume_ratio : NFloat
  trend_20d : NFloat
deriving DecidableEq

/-- The `if`-`elif` on RSI (`src/main.py` lines 84-89), producing the
`signals`/`score` state it leaves behind. -/
def rsiStep (l : Row) : List Signal × ℕ :=
  if nfLE (.fin 20) l.RSI && nfLE l.RSI (.fin 30) then
    ([Signal.rsiOversold], 3)
  else if nfLT (.fin 30) l.RSI && nfLE l.RSI (.fin 40) then
    ([Signal.rsiNearOversold], 1)
  else ([], 0)

/-- One `if cond: signals.append(sig); score += w` block of the source,
acting on the accumulated `signals`/`score` state. -/
def addIf (b : Bool) (sig : Signal) (w : ℕ) (acc : List Signal × ℕ) :
    List Signal × ℕ :=
  if b then (acc.1 ++ [sig], acc.2 + w) else acc

/-- The `signals`/`score` state after all five rule blocks of
`analyze_stock` (`src/main.py` lines 83-102), in source order. -/
def coreAcc (l p : Row) : List Signal × ℕ :=
  addIf (nfLT (.fin 2) (nfDiv l.Volume l.Volume_SMA))
    (Signal.volumeSpike (nfDiv l.Volume l.Volume_SMA)) 1
    (addIf (nfLT l.SMA_50 l.SMA_20 && nfLE p.SMA_20 p.SMA_50)
      Signal.smaCross 2
      (addIf (nfLT l.Close l.BB_Low) Signal.belowLowerBand 2
        (addIf (nfLT l.MACD_Signal l.MACD && nfLE p.MACD p.MACD_Signal)
          Signal.macdCross 2 (rsiStep l))))

/-- The body of `analyze_stock` from the two extracted rows onwards
(`src/main.py` lines 82-112): accumulate signals and score, then emit
iff `signals` is non-empty and the score reaches 2. -/
def analyze_core (last_row prev_row : Row) (symbol : Str) : Option Opportunity :=
  let vol_ratio := nfDiv last_row.Volume last_row.Volume_SMA
  let acc := coreAcc last_row prev_row
  if acc.1 ≠ [] ∧ 2 ≤ acc.2 then
    some (Opportunity.mk symbol acc.1 acc.2 last_row.Close last_row.RSI
      vol_ratio last_row.Trend_20)
  else none

/-- `src/main.py` lines 77-115: guard on a present frame of at least 50
bars, then read the last two rows (`df.iloc[-1]`, `df.iloc[-2]`). -/
def analyze_stock (df : Option (List Row)) (symbol : Str) : Option Opportunity :=
  match df with
  | none => none
  | some rows =>
    if rows.length < 50 then none
    else
      match rows.getLast?, rows.dropLast.getLast? with
      | some last_row, some prev_row => analyze_core last_row prev_row symbol
      | _, _ => none

/-! ### The scoring rule table, stated from the spec

Rules are numbered 0-5 in the order of the spec's table; condition 1 is
the `(30,40]` RSI band, which is disjoint from the `[20,30]` band by
arithmetic (both are false on `nan`). -/

def ruleCond : ℕ → Row → Row → Bool
  | 0 => fun l _ => nfLE (.fin 20) l.RSI && nfLE l.RSI (.fin 30)
  | 1 => fun l _ => nfLT (.fin 30) l.RSI && nfLE l.RSI (.fin 40)
  | 2 => fun l p => nfLT l.MACD_Signal l.MACD && nfLE p.MACD p.MACD_Signal
  | 3 => fun l _ => nfLT l.Close l.BB_Low
  | 4 => fun l p => nfLT l.SMA_50 l.SMA_20 && nfLE p.SMA_20 p.SMA_50
  | 5 => fun l _ => nfLT (.fin 2) (nfDiv l.Volume l.Volume_SMA)
  | _ => fun _ _ => false

def ruleWeight : ℕ → ℕ
  | 0 => 3
  | 1 => 1
  | 2 => 2
  | 3 => 2
  | 4 => 2
  | 5 => 1
  | _ => 0

/-- The indices of the rules that fire on the last two rows. -/
def firedRules (l p : Row) : List ℕ :=
  ([0, 1, 2, 3, 4, 5]).filter (fun i => ruleCond i l p)

/-- The aggregate score the spec's table assigns. -/
def specScore (l p : Row) : ℕ :=
  ((firedRules l p).map ruleWeight).sum

/-- The two RSI bands cannot fire together. -/
theorem rsi_bands_disjoint (x : NFloat) (h : nfLE x (.fin 30) = true) :
    nfLT (.fin 30) x = false := by
  cases x <;> simp_all [nfLE, nfLT]

theorem conds_disjoint (l : Row) :
    ¬((nfLE (.fin 20) l.RSI && nfLE l.RSI (.fin 30)) = true ∧
      (nfLT (.fin 30) l.RSI && nfLE l.RSI (.fin 40)) = true) := by
  rintro ⟨ha, hb⟩
  rw [Bool.and_eq_true] at ha hb
  have hf := rsi_bands_disjoint l.RSI ha.2
  rw [hb.1] at hf
  cases hf

theorem addIf_snd (b : Bool) (sig : Signal) (w : ℕ) (acc : List Signal × ℕ) :
    (addIf b sig w acc).2 = acc.2 + (if b then w else 0) := by
  unfold addIf
  split <;> simp

theorem addIf_len (b : Bool) (sig : Signal) (w : ℕ) (acc : List Signal × ℕ) :
    (addIf b sig w acc).1.length = acc.1.length + (if b then 1 else 0) := by
  unfold addIf
  split <;> simp

theorem rsiStep_snd (l : Row) :
    (rsiStep l).2 =
      (if nfLE (.fin 20) l.RSI && nfLE l.RSI (.fin 30) then 3 else 0) +
        (if nfLT (.fin 30) l.RSI && nfLE l.RSI (.fin 40) then 1 else 0) := by
  have hd := conds_disjoint l
  unfold rsiStep
  split_ifs <;> simp_all

theorem rsiStep_len (l : Row) :
    (rsiStep l).1.length =
      (if nfLE (.fin 20) l.RSI && nfLE l.RSI (.fin 30) then 1 else 0) +
        (if nfLT (.fin 30) l.RSI && nfLE l.RSI (.fin 40) then 1 else 0) := by
  have hd := conds_disjoint l
  unfold rsiStep
  split_ifs <;> simp_all

theorem specScore_eq (l p : Row) :
    specScore l p =
      (if nfLE (.fin 20) l.RSI && nfLE l.RSI (.fin 30) then 3 else 0) +
        (if nfLT (.fin 30) l.RSI && nfLE l.RSI (.fin 40) then 1 else 0) +
        (if nfLT l.MACD_Signal l.MACD && nfLE p.MACD p.MACD_Signal then 2 else 0) +
        (if nfLT l.Close l.BB_Low then 2 else 0) +
        (if nfLT l.SMA_50 l.SMA_20 && nfLE p.SMA_20 p.SMA_50 then 2 else 0) +
        (if nfLT (.fin 2) (nfDiv l.Volume l.Volume_SMA) then 1 else 0) := by
  simp only [specScore, firedRules, ruleCond, List.filter_cons, List.filter_nil]
  split_ifs <;> simp [ruleWeight]

theorem fired_len_eq (l p : Row) :
    (firedRules l p).length =
      (if nfLE (.fin 20) l.RSI && nfLE l.RSI (.fin 30) then 1 else 0) +
        (if nfLT (.fin 30) l.RSI && nfLE l.RSI (.fin 40) then 1 else 0) +
        (if nfLT l.MACD_Signal l.MACD && nfLE p.MACD p.MACD_Signal then 1 else 0) +
        (if nfLT l.Close l.BB_Low then 1 else 0) +
        (if nfLT l.SMA_50 l.SMA_20 && nfLE p.SMA_20 p.SMA_50 then 1 else 0) +
        (if nfLT (.fin 2) (nfDiv l.Volume l.Volume_SMA) then 1 else 0) := by
  simp only [firedRules, ruleCond, List.filter_cons, List.filter_nil]
  split_ifs <;> simp

theorem coreAcc_snd (l p : Row) : (coreAcc l p).2 = specScore l p := by
  rw [coreAcc, addIf_snd, addIf_snd, addIf_snd, addIf_snd, rsiStep_snd,
    specScore_eq]

theorem coreAcc_len (l p : Row) :
    (coreAcc l p).1.length = (firedRules l p).length := by
  rw [coreAcc, addIf_len, addIf_len, addIf_len, addIf_len, rsiStep_len,
    fired_len_eq]

theorem coreAcc_ne_nil (l p : Row) :
    (coreAcc l p).1 ≠ [] ↔ firedRules l p ≠ [] := by
  rw [← List.length_pos, coreAcc_len, List.length_pos]

theorem analyze_core_isSome (l p : Row) (sym : Str) :
    (analyze_core l p sym).isSome = true ↔
      firedRules l p ≠ [] ∧ 2 ≤ specScore l p := by
  simp only [analyze_core]
  split
  · next hc =>
    simp only [Option.isSome_some, true_iff]
    exact ⟨(coreAcc_ne_nil l p).mp hc.1, by rw [← coreAcc_snd l p]; exact hc.2⟩
  · next hc =>
    simp only [Option.isSome_none, Bool.false_eq_true, false_iff]
    intro hh
    exact hc ⟨(coreAcc_ne_nil l p).mpr hh.1, by rw [coreAcc_snd l p]; exact hh.2⟩

theorem specScore_le (l p : Row) :
    specScore l p ≤ 10 ∧ (firedRules l p).length ≤ 5 := by
  have hd := conds_disjoint l
  rw [specScore_eq l p, fired_len_eq l p]
  cases h0 : (nfLE (.fin 20) l.RSI && nfLE l.RSI (.fin 30)) <;>
    cases h1 : (nfLT (.fin 30) l.RSI && nfLE l.RSI (.fin 40)) <;>
    simp_all <;> split_ifs <;> omega

theorem analyze_core_bounds (l p : Row) (sym : Str) (o : Opportunity)
    (h : analyze_core l p sym = some o) :
    2 ≤ o.score ∧ o.score ≤ 10 ∧ 1 ≤ o.signals.length ∧
      o.signals.length ≤ 5 := by
  obtain ⟨hsc, hln⟩ := specScore_le l p
  simp only [analyze_core] at h
  split at h
  · next hc =>
    injection h with h
    subst h
    refine ⟨hc.2, ?_, ?_, ?_⟩
    · show (coreAcc l p).2 ≤ 10
      rw [coreAcc_snd]
      exact hsc
    · show 1 ≤ (coreAcc l p).1.length
      exact List.length_pos.mpr hc.1
    · show (coreAcc l p).1.length ≤ 5
      rw [coreAcc_len]
      exact hln
  · cases h

theorem analyze_core_ratio (l p : Row) (sym : Str) (o : Opportunity)
    (h : analyze_core l p sym = some o) :
    o.volume_ratio = nfDiv l.Volume l.Volume_SMA := by
  simp only [analyze_core] at h
  split at h
  · injection h with h
    subst h
    rfl
  · cases h

/-- Total accessors for `df.iloc[-1]` and `df.iloc[-2]`. -/
def lastRow (rows : List Row) : Row :=
  rows.getLast?.getD default

def prevRow (rows : List Row) : Row :=
  rows.dropLast.getLast?.getD default

theorem analyze_stock_eq_core (rows : List Row) (sym : Str)
    (h : 50 ≤ rows.length) :
    analyze_stock (some rows) sym =
      analyze_core (lastRow rows) (prevRow rows) sym := by
  have hne : rows ≠ [] := by
    intro he
    subst he
    simp at h
  have hne2 : rows.dropLast ≠ [] := by
    intro he
    have := congrArg List.length he
    simp only [List.length_dropLast, List.length_nil] at this
    omega
  obtain ⟨lr, hlr⟩ : ∃ x, rows.getLast? = some x :=
    Option.isSome_iff_exists.mp (List.getLast?_isSome.mpr hne)
  obtain ⟨pr, hpr⟩ : ∃ x, rows.dropLast.getLast? = some x :=
    Option.isSome_iff_exists.mp (List.getLast?_isSome.mpr hne2)
  have hl : lastRow rows = lr := by simp [lastRow, hlr]
  have hp : prevRow rows = pr := by simp [prevRow, hpr]
  simp only [analyze_stock]
  rw [if_neg (by omega), hlr, hpr, hl, hp]

/-- C1: on a present frame of at least 50 bars, the evaluator emits an
opportunity exactly when at least one rule of the spec's table fires and
the sum of the fired rules' weights is at least 2. -/
theorem claim_C1 (rows : List Row) (sym : Str) (h : 50 ≤ rows.length) :
    (analyze_stock (some rows) sym).isSome = true ↔
      firedRules (lastRow rows) (prevRow rows) ≠ [] ∧
        2 ≤ specScore (lastRow rows) (prevRow rows) := by
  rw [analyze_stock_eq_core rows sym h]
  exact analyze_core_isSome (lastRow rows) (prevRow rows) sym

/-- A quiet row: only the oversold RSI rule fires (the volume ratio is
`nan`, so the volume rule compares false). -/
def wrow : Row :=
  Row.mk (.fin 10) (.fin 0) (.fin 25) (.fin 0) (.fin 0) (.fin 0) (.fin 0)
    (.fin 0) (.fin 1) (.fin 0) (.fin 0)

theorem claim_C1_witness :
    (analyze_stock (some (List.replicate 50 wrow)) ['X']).isSome = true :=
  (claim_C1 (List.replicate 50 wrow) ['X'] (by simp)).mpr
    ⟨by decide, by decide⟩

/-- C7: the evaluator returns none on an absent frame and on every frame
with fewer than 50 bars, whatever the bars contain. -/
theorem claim_C7 (df : Option (List Row)) (sym : Str)
    (h : df = none ∨ ∃ rows, df = some rows ∧ rows.length < 50) :
    analyze_stock df sym = none := by
  rcases h with rfl | ⟨rows, rfl, hlen⟩
  · rfl
  · simp only [analyze_stock]
    rw [if_pos hlen]

theorem claim_C7_witness :
    analyze_stock (some (List.replicate 49 wrow)) ['X'] = none :=
  claim_C7 (some (List.replicate 49 wrow)) ['X']
    (Or.inr ⟨List.replicate 49 wrow, rfl, by simp⟩)

/-- C10: every emitted opportunity has score between 2 and 10 and
between 1 and 5 signals. -/
theorem claim_C10 (df : Option (List Row)) (sym : Str) (o : Opportunity)
    (h : analyze_stock df sym = some o) :
    2 ≤ o.score ∧ o.score ≤ 10 ∧ 1 ≤ o.signals.length ∧
      o.signals.length ≤ 5 := by
  match df with
  | none => cases h
  | some rows =>
    by_cases hlen : 50 ≤ rows.length
    · rw [analyze_stock_eq_core rows sym hlen] at h
      exact analyze_core_bounds _ _ _ _ h
    · simp only [analyze_stock] at h
      rw [if_pos (by omega)] at h
      cases h

theorem claim_C10_witness :
    2 ≤ (Opportunity.mk ['X'] [Signal.rsiOversold] 3 (.fin 10) (.fin 25)
        .nan (.fin 0)).score ∧
      (Opportunity.mk ['X'] [Signal.rsiOversold] 3 (.fin 10) (.fin 25)
        .nan (.fin 0)).score ≤ 10 ∧
      1 ≤ (Opportunity.mk ['X'] [Signal.rsiOversold] 3 (.fin 10) (.fin 25)
        .nan (.fin 0)).signals.length ∧
      (Opportunity.mk ['X'] [Signal.rsiOversold] 3 (.fin 10) (.fin 25)
        .nan (.fin 0)).signals.length ≤ 5 :=
  claim_C10 (some (List.replicate 50 wrow)) ['X']
    (Opportunity.mk ['X'] [Signal.rsiOversold] 3 (.fin 10) (.fin 25)
      .nan (.fin 0)) (by decide)

/-- A row whose 20-bar volume average is zero while its volume is
positive; the oversold RSI rule also fires. -/
def c6row : Row :=
  Row.mk (.fin 10) (.fin 100) (.fin 25) (.fin 0) (.fin 0) (.fin 0) (.fin 0)
    (.fin 0) (.fin 1) (.fin 0) (.fin 0)

def c6frame : List Row :=
  List.replicate 50 c6row

/-- C6 fails as stated: numpy float64 division by a zero volume average
yields +inf with a warning instead of raising, so no exception reaches
the handler; the volume rule compares `inf > 2` as true and the
evaluator emits a result instead of returning none. -/
theorem claim_C6_counterexample :
    (lastRow c6frame).Volume_SMA = .fin 0 ∧ c6frame.length = 50 ∧
      analyze_stock (some c6frame) ['X'] =
        some (Opportunity.mk ['X']
          [Signal.rsiOversold, Signal.volumeSpike .inf] 4 (.fin 10)
          (.fin 25) .inf (.fin 0)) := by
  refine ⟨by decide, by decide, by decide⟩

/-- C6 (amended): with at least 50 bars, a zero volume average and a
positive volume on the latest bar, the division produces +inf rather
than an exception; the volume-spike rule fires, evaluation proceeds
normally, the evaluator returns none exactly when the aggregate score
stays below 2, and any emitted opportunity records the infinite
ratio. -/
theorem claim_C6_amended (rows : List Row) (sym : Str) (v : ℚ)
    (hlen : 50 ≤ rows.length)
    (hz : (lastRow rows).Volume_SMA = .fin 0)
    (hv : (lastRow rows).Volume = .fin v) (hpos : 0 < v) :
    (analyze_stock (some rows) sym = none ↔
      specScore (lastRow rows) (prevRow rows) < 2) ∧
      ∀ o, analyze_stock (some rows) sym = some o → o.volume_ratio = .inf := by
  have hratio :
      nfDiv (lastRow rows).Volume (lastRow rows).Volume_SMA = .inf := by
    rw [hz, hv]
    simp [nfDiv, hpos]
  have h5 : ruleCond 5 (lastRow rows) (prevRow rows) = true := by
    simp [ruleCond, hratio, nfLT]
  have hne : firedRules (lastRow rows) (prevRow rows) ≠ [] :=
    List.ne_nil_of_mem (List.mem_filter.mpr ⟨by simp, h5⟩)
  have hiff := analyze_core_isSome (lastRow rows) (prevRow rows) sym
  rw [analyze_stock_eq_core rows sym hlen]
  constructor
  · constructor
    · intro hn
      by_contra hge
      push_neg at hge
      have hs : (analyze_core (lastRow rows) (prevRow rows) sym).isSome = true :=
        hiff.mpr ⟨hne, hge⟩
      rw [hn] at hs
      cases hs
    · intro hlt
      cases ho : analyze_core (lastRow rows) (prevRow rows) sym with
      | none => rfl
      | some o =>
        have hs := hiff.mp (by rw [ho]; rfl)
        omega
  · intro o ho
    rw [analyze_core_ratio _ _ _ _ ho, hratio]

theorem claim_C6_amended_witness :
    ((analyze_stock (some c6frame) ['X'] = none ↔
      specScore (lastRow c6frame) (prevRow c6frame) < 2) ∧
      ∀ o, analyze_stock (some c6frame) ['X'] = some o →
        o.volume_ratio = .inf) :=
  claim_C6_amended c6frame ['X'] 100 (by decide) (by decide) (by decide)
    (by norm_num)

/-! ### Universe resolution (`get_all_tickers`)

The S&P 500 fetch is an explicit input: either the raised error or the
list of raw constituent strings. -/

def reliable_symbols : List Str :=
  [("AAPL").data, ("MSFT").data, ("GOOGL").data, ("AMZN").data,
    ("META").data, ("NVDA").data, ("TSLA").data, ("JPM").data, ("V").data,
    ("WMT").data, ("PG").data, ("MA").data, ("HD").data, ("BAC").data,
    ("DIS").data, ("CSCO").data, ("VZ").data, ("KO").data]

/-- Models Python `list(set(xs))`: duplicates removed; the set's
arbitrary iteration order is fixed to first-occurrence order, and no
claim below depends on the order. -/
def pySetList (xs : List Str) : List Str :=
  xs.eraseDups

/-- Python truthiness of `clean_symbol(s)` in
`if clean_symbol(symbol)`: `None` and the empty string are falsy. -/
def truthyStr : Option Str → Bool
  | none => false
  | some s => !s.isEmpty

/-- `src/main.py` lines 33-45. -/
def get_all_tickers (sp500 : Except Unit (List Str)) : List Str :=
  match sp500 with
  | .error _ => []
  | .ok syms =>
    ((pySetList (syms ++ reliable_symbols)).filter
        (fun s => truthyStr (clean_symbol s))).map
      (fun s => (clean_symbol s).getD [])

/-- C8 fails as stated: raw strings are deduplicated by `set` before
normalization, so two distinct raw strings that normalize to the same
symbol survive as duplicates.  A fetched lowercase `aapl` duplicates the
seed `AAPL`. -/
theorem claim_C8_counterexample :
    ¬ (get_all_tickers (Except.ok [['a', 'a', 'p', 'l']])).Nodup := by
  decide

/-- C8 (amended): the result contains only valid, normalized, non-empty
symbols (each is a fixed point of `clean_symbol`), and retrieval failure
yields the empty collection; the result may contain duplicates when
distinct raw strings normalize to the same symbol. -/
theorem claim_C8_amended (sp500 : Except Unit (List Str)) :
    ((sp500 matches .error _) → get_all_tickers sp500 = []) ∧
      ∀ t ∈ get_all_tickers sp500,
        is_valid_symbol t = true ∧ clean_symbol t = some t ∧ t ≠ [] := by
  constructor
  · intro hm
    match sp500, hm with
    | .error e, _ => rfl
  · intro t ht
    match sp500 with
    | .error e => simp [get_all_tickers] at ht
    | .ok syms =>
      simp only [get_all_tickers, List.mem_map] at ht
      obtain ⟨s, hs, rfl⟩ := ht
      rw [List.mem_filter] at hs
      obtain ⟨-, htr⟩ := hs
      cases hcs : clean_symbol s with
      | none => rw [hcs] at htr; cases htr
      | some u =>
        rw [hcs] at htr
        simp only [Option.getD_some]
        have hu : u ≠ [] := by
          intro hnil
          subst hnil
          simp [truthyStr] at htr
        exact ⟨(clean_symbol_some s u hcs).2, clean_symbol_fix s u hcs, hu⟩

theorem claim_C8_amended_witness :
    get_all_tickers (Except.error ()) = [] :=
  (claim_C8_amended (Except.error ())).1 (by constructor)

/-! ### Scan collection and ranking (`scan_market`, `main`)

Each unit of work yields an `Option Opportunity`; the completion order
of the thread pool is the order of the input list.  `scan_market`
appends every truthy result as it completes; `main` then sorts by score,
descending.  Python `list.sort` is stable, modelled by the stable
`List.mergeSort`. -/

def scan_market (completed : List (Option Opportunity)) : List Opportunity :=
  completed.filterMap id

def main_output (completed : List (Option Opportunity)) : List Opportunity :=
  (scan_market completed).mergeSort (fun a b => decide (b.score ≤ a.score))

/-- C3: the ranked output is a permutation of the collected results,
sorted by descending score, and stable: for every score value the
subsequence of opportunities with that score is exactly the collected
subsequence, in collection order. -/
theorem claim_C3 (completed : List (Option Opportunity)) :
    List.Perm (main_output completed) (scan_market completed) ∧
      (main_output completed).Pairwise (fun a b => b.score ≤ a.score) ∧
      ∀ k, (main_output completed).filter (fun o => o.score == k) =
        (scan_market completed).filter (fun o => o.score == k) := by
  have htrans : ∀ (a b c : Opportunity),
      decide (b.score ≤ a.score) = true →
        decide (c.score ≤ b.score) = true →
          decide (c.score ≤ a.score) = true := by
    intro a b c h1 h2
    simp only [decide_eq_true_eq] at h1 h2 ⊢
    omega
  have htotal : ∀ (a b : Opportunity),
      (decide (b.score ≤ a.score) || decide (a.score ≤ b.score)) = true := by
    intro a b
    simp only [Bool.or_eq_true, decide_eq_true_eq]
    omega
  refine ⟨List.mergeSort_perm _ _, ?_, ?_⟩
  · have hp := List.sorted_mergeSort htrans htotal (scan_market completed)
    exact hp.imp (fun hab => by simpa using hab)
  · intro k
    have hmemk : ∀ o ∈ (scan_market completed).filter (fun o => o.score == k),
        o.score = k := by
      intro o ho
      have := (List.mem_filter.mp ho).2
      simpa using this
    have hpw : ((scan_market completed).filter
        (fun o => o.score == k)).Pairwise
          (fun a b => decide (b.score ≤ a.score) = true) := by
      apply List.pairwise_of_forall_mem_list
      intro a ha b hb
      rw [hmemk a ha, hmemk b hb]
      simp
    have hsub : List.Sublist
        ((scan_market completed).filter (fun o => o.score == k))
        (main_output completed) :=
      List.sublist_mergeSort htrans htotal hpw (List.filter_sublist _)
    have hperm : List.Perm
        ((main_output completed).filter (fun o => o.score == k))
        ((scan_market completed).filter (fun o => o.score == k)) :=
      (List.mergeSort_perm _ _).filter _
    have hself : ((scan_market completed).filter
        (fun o => o.score == k)).filter (fun o => o.score == k) =
          (scan_market completed).filter (fun o => o.score == k) :=
      List.filter_eq_self.mpr (fun a ha => (List.mem_filter.mp ha).2)
    have hsub2 : List.Sublist
        ((scan_market completed).filter (fun o => o.score == k))
        ((main_output completed).filter (fun o => o.score == k)) := by
      have := hsub.filter (fun o => o.score == k)
      rwa [hself] at this
    exact (hsub2.eq_of_length hperm.length_eq.symm).symm

end StockScan
